import Mathlib

/-!
Verification of the shipyard-trees library.

The development shallowly embeds the three source modules:
* `src/node.rs` — the `Ordered` fractional-index key and the `ChildOf` relation;
* `src/reordering.rs` — the `tree_reordering` system draining `Move` commands;
* `src/indexing.rs` — the `tree_indexing` system maintaining the derived
  `SiblingIndex` / `ParentIndex` components.

Entity ids (`shipyard::EntityId`) are modelled as natural numbers, `u32` order
keys as natural numbers (every operation in scope stays below `2 ^ 32`, so no
wrap-around can occur), shipyard component storages as id-keyed association
lists, and panicking storage accesses (`get`, `expect`) as `Option` failure.
-/

namespace ShipyardTrees

/-- Domain maximum `MAX_ORDERED = Ordered(u32::MAX)` (src/node.rs). -/
def MAX_ORDERED : Nat := 2 ^ 32 - 1

/-- Constructor `Ordered::hinted` (src/node.rs):
`(hint^3 + hint*4) + u32::MAX/8`. For `hint ≤ 255` the result is at most
`255^3 + 255*4 + 536870911 = 553453306 < 2^32`, so no `u32` overflow occurs. -/
def Ordered.hinted (hint : Nat) : Nat :=
  hint ^ 3 + hint * 4 + (2 ^ 32 - 1) / 8

/-- Midpoint `Ordered::between` (src/node.rs): `min/2 + max/2` with integer
(floor) division; division happens before addition, so no overflow. -/
def Ordered.between (min max : Nat) : Nat :=
  min / 2 + max / 2

/-- The `ChildOf` relation (src/node.rs): field 0 is the parent id, field 1 the
order key relative to siblings. -/
structure ChildOf where
  parent : Nat
  ord : Nat
  deriving DecidableEq

/-- First-match lookup in an id-keyed association list; models a shipyard
storage lookup (real storages hold at most one component per id). -/
def lookupId {α : Type} : List (Nat × α) → Nat → Option α
  | [], _ => none
  | (k, v) :: rest, i => if k = i then some v else lookupId rest i

/-- Overwrite-or-append update of an id-keyed association list; models both
`add_component` and in-place mutation of an existing component. -/
def setId {α : Type} : List (Nat × α) → Nat → α → List (Nat × α)
  | [], i, v => [(i, v)]
  | (k, w) :: rest, i, v =>
      if k = i then (k, v) :: rest else (k, w) :: setId rest i v

/-- Removal from an id-keyed association list; models component deletion. -/
def removeId {α : Type} (s : List (Nat × α)) (i : Nat) : List (Nat × α) :=
  s.filter (fun p => decide (¬ p.1 = i))

/-- Reorder command (src/reordering.rs): `Move { entity, between: (a, b) }`. -/
inductive ReorderCmd where
  | move (entity : Nat) (between : Nat × Nat)
  deriving DecidableEq

/-- One iteration of the drain loop in `tree_reordering` (src/reordering.rs).
Reads A's and B's `ChildOf`; if their parents differ, replaces B's key by the
fold over all current `ChildOf` relations that picks the smallest key of a
child of A's parent strictly above A's key, defaulting to `MAX_ORDERED`;
finally rewrites the target's `ChildOf` to A's parent and the midpoint key.
`none` models the panic of shipyard's `get` on a missing component. -/
def reorderStep (child_of : List (Nat × ChildOf)) : ReorderCmd → Option (List (Nat × ChildOf))
  | ReorderCmd.move target (a, b) =>
    match lookupId child_of a with
    | none => none
    | some aCo =>
      match lookupId child_of b with
      | none => none
      | some bCo =>
        let b_ord : Nat :=
          if aCo.parent ≠ bCo.parent then
            (child_of.filter
                (fun p => decide (p.2.parent = aCo.parent ∧ aCo.ord < p.2.ord))).foldl
              (fun after p => if p.2.ord < after then p.2.ord else after)
              MAX_ORDERED
          else bCo.ord
        match lookupId child_of target with
        | none => none
        | some _ =>
          some (setId child_of target ⟨aCo.parent, Ordered.between aCo.ord b_ord⟩)

/-- The `tree_reordering` system (src/reordering.rs): drain the whole command
queue in submission order, each command observing the writes of earlier ones. -/
def tree_reordering (cmds : List ReorderCmd) (child_of : List (Nat × ChildOf)) :
    Option (List (Nat × ChildOf)) :=
  cmds.foldlM (fun s c => reorderStep s c) child_of

/-- Composite sort key `SiblingID = (Ordered, ID)` (src/indexing.rs); the order
key comes first so that it takes ordering precedence. -/
abbrev SiblingID := Nat × Nat

/-- Strict lexicographic order on `SiblingID`: Rust's derived `Ord` on the
tuple `(Ordered, ID)`. -/
def sibLT (x y : SiblingID) : Prop :=
  x.1 < y.1 ∨ (x.1 = y.1 ∧ x.2 < y.2)

instance : DecidableRel sibLT := fun x y =>
  decidable_of_iff (x.1 < y.1 ∨ (x.1 = y.1 ∧ x.2 < y.2)) Iff.rfl

/-- Non-strict lexicographic order on `SiblingID`, the comparison used by
`Vec::sort` in the `ParentIndex` materialization. -/
def sibLE (x y : SiblingID) : Prop :=
  x.1 < y.1 ∨ (x.1 = y.1 ∧ x.2 ≤ y.2)

instance : DecidableRel sibLE := fun x y =>
  decidable_of_iff (x.1 < y.1 ∨ (x.1 = y.1 ∧ x.2 ≤ y.2)) Iff.rfl

/-- Derived per-child record `SiblingIndex` (src/indexing.rs). -/
structure SiblingIndex where
  parent_node : Nat
  ordered_node : SiblingID
  prev_sibling : Option SiblingID
  next_sibling : Option SiblingID
  deriving DecidableEq

/-- Derived per-parent record `ParentIndex` (src/indexing.rs). -/
structure ParentIndex where
  children : List SiblingID
  deriving DecidableEq

/-- The three shipyard storages touched by `tree_indexing`: the `ChildOf`
relation store (already reflecting this frame's changes) and the two derived
index storages. -/
structure World where
  child_of : List (Nat × ChildOf)
  sibling_index : List (Nat × SiblingIndex)
  parent_index : List (Nat × ParentIndex)
  deriving DecidableEq

/-- Loop of Rust's `slice::binary_search` on the children vector, specialised
to `SiblingID`: `Sum.inl i` models `Ok(i)` (match found at `i`), `Sum.inr i`
models `Err(i)` (insertion point `i`). The structural `fuel` argument only
bounds the recursion; every call keeps `hi - lo ≤ fuel`, and the search always
starts with `fuel = xs.length`, so the `fuel = 0` cutoff coincides with the
`lo = hi` exit of the Rust loop and is never hit early. -/
def bsearchGo (xs : List SiblingID) (x : SiblingID) : Nat → Nat → Nat → Sum Nat Nat
  | 0, lo, _ => Sum.inr lo
  | fuel + 1, lo, hi =>
    if lo < hi then
      if sibLT (xs.getD ((lo + hi) / 2) (0, 0)) x then
        bsearchGo xs x fuel ((lo + hi) / 2 + 1) hi
      else if xs.getD ((lo + hi) / 2) (0, 0) = x then
        Sum.inl ((lo + hi) / 2)
      else
        bsearchGo xs x fuel lo ((lo + hi) / 2)
    else Sum.inr lo

/-- Rust's `Vec::binary_search` over the whole children vector. -/
def binarySearch (xs : List SiblingID) (x : SiblingID) : Sum Nat Nat :=
  bsearchGo xs x xs.length 0 xs.length

/-- The `for (idx, child) in children.iter().enumerate()` loop of the
`ParentIndex` materialization in `insert_child_of` (src/indexing.rs): creates a
`SiblingIndex` for every scanned child, linking neighbours by position. -/
def materializeSibs (si : List (Nat × SiblingIndex)) (parent_id : Nat)
    (children : List SiblingID) : List (Nat × SiblingIndex) :=
  children.enum.foldl
    (fun si p =>
      setId si p.2.2
        ⟨parent_id, p.2,
          if 0 < p.1 then some (children.getD (p.1 - 1) (0, 0)) else none,
          if p.1 < children.length - 1 then some (children.getD (p.1 + 1) (0, 0)) else none⟩)
    si

/-- Point an existing sibling's `next_sibling` at a new value; `none` models the
panic of `vm_sibling_index.get` on a missing component. -/
def setSibNext (si : List (Nat × SiblingIndex)) (i : Nat) (nxt : Option SiblingID) :
    Option (List (Nat × SiblingIndex)) :=
  match lookupId si i with
  | none => none
  | some s => some (setId si i ⟨s.parent_node, s.ordered_node, s.prev_sibling, nxt⟩)

/-- Point an existing sibling's `prev_sibling` at a new value; `none` models the
panic of `vm_sibling_index.get` on a missing component. -/
def setSibPrev (si : List (Nat × SiblingIndex)) (i : Nat) (prv : Option SiblingID) :
    Option (List (Nat × SiblingIndex)) :=
  match lookupId si i with
  | none => none
  | some s => some (setId si i ⟨s.parent_node, s.ordered_node, prv, s.next_sibling⟩)

/-- `insert_child_of` (src/indexing.rs). If the parent has no `ParentIndex`
yet, it is materialized by scanning all current `ChildOf` relations for
children of the parent, sorting them and building the whole linked list. Then
a binary search decides whether the exact `(key, id)` pair is already present
(no-op); otherwise any stale entry for the child id is dropped, the insertion
point recomputed, the new `SiblingID` spliced in, the neighbours' pointers
patched, and the child's own `SiblingIndex` written. -/
def insert_child_of (w : World) (child_id : Nat) (child_order : Nat)
    (parent_id : Nat) : Option World :=
  let st : World :=
    match lookupId w.parent_index parent_id with
    | some _ => w
    | none =>
      let children :=
        List.insertionSort sibLE
          ((w.child_of.filter (fun p => decide (p.2.parent = parent_id))).map
            (fun p => (p.2.ord, p.1)))
      { w with
        sibling_index := materializeSibs w.sibling_index parent_id children,
        parent_index := setId w.parent_index parent_id ⟨children⟩ }
  match lookupId st.parent_index parent_id with
  | none => none
  | some pi =>
    match binarySearch pi.children (child_order, child_id) with
    | Sum.inl _ => some st
    | Sum.inr _ =>
      let siblings := pi.children.filter (fun s => decide (¬ s.2 = child_id))
      match binarySearch siblings (child_order, child_id) with
      | Sum.inl _ => none
      | Sum.inr insert_at =>
        let prev_node_opt : Option SiblingID :=
          if 0 < insert_at then some (siblings.getD (insert_at - 1) (0, 0)) else none
        let next_node_opt : Option SiblingID :=
          if insert_at < siblings.length then some (siblings.getD insert_at (0, 0)) else none
        let spliced :=
          siblings.take insert_at ++ (child_order, child_id) :: siblings.drop insert_at
        let st2 : World :=
          { st with parent_index := setId st.parent_index parent_id ⟨spliced⟩ }
        match
          match prev_node_opt with
          | some p => setSibNext st2.sibling_index p.2 (some (child_order, child_id))
          | none => some st2.sibling_index
        with
        | none => none
        | some siA =>
          match
            match next_node_opt with
            | some n => setSibPrev siA n.2 (some (child_order, child_id))
            | none => some siA
          with
          | none => none
          | some siB =>
            some { st2 with
                    sibling_index :=
                      setId siB child_id
                        ⟨parent_id, (child_order, child_id), prev_node_opt, next_node_opt⟩ }

/-- `unlink_child` (src/indexing.rs): reads the child's `SiblingIndex`
(panicking if absent), removes the child from its parent's children by id,
re-links the two neighbours across the gap, and deletes the child's
`SiblingIndex`. -/
def unlink_child (w : World) (child : Nat) : Option World :=
  match lookupId w.sibling_index child with
  | none => none
  | some ci =>
    match lookupId w.parent_index ci.parent_node with
    | none => none
    | some pi =>
      let w1 : World :=
        { w with
          parent_index :=
            setId w.parent_index ci.parent_node
              ⟨pi.children.filter (fun s => decide (¬ s.2 = child))⟩ }
      match
        match ci.prev_sibling with
        | some p => setSibNext w1.sibling_index p.2 ci.next_sibling
        | none => some w1.sibling_index
      with
      | none => none
      | some si2 =>
        match
          match ci.next_sibling with
          | some n => setSibPrev si2 n.2 ci.prev_sibling
          | none => some si2
        with
        | none => none
        | some si3 =>
          some { w1 with sibling_index := removeId si3 child }

/-- The `tree_indexing` system (src/indexing.rs): process the frame's change
diff of the `ChildOf` storage — deletions first, then insertions, then
modifications (a modification unlinks and reinserts). The id lists are the
diff sets; inserted and modified entries read their current `ChildOf` value
from the (already updated) relation store. -/
def tree_indexing (deleted inserted modified : List Nat) (w : World) : Option World :=
  match deleted.foldlM (fun w i => unlink_child w i) w with
  | none => none
  | some w1 =>
    match
      inserted.foldlM
        (fun w i =>
          match lookupId w.child_of i with
          | none => none
          | some co => insert_child_of w i co.ord co.parent)
        w1
    with
    | none => none
    | some w2 =>
      modified.foldlM
        (fun w i =>
          match lookupId w.child_of i with
          | none => none
          | some co =>
            match unlink_child w i with
            | none => none
            | some wu => insert_child_of wu i co.ord co.parent)
        w2

/-- Initial world of the two-pass scenario exhibiting the stale-index bug:
entity 2 is a child of parent 0 with key 10; nothing is indexed yet. -/
def bugW0 : World := ⟨[(2, ⟨0, 10⟩)], [], []⟩

/-- World after the first `tree_indexing` pass over `bugW0` (entity 2 indexed
under parent 0). -/
def bugW1 : World :=
  ⟨[(2, ⟨0, 10⟩)],
   [(2, ⟨0, (10, 2), none, none⟩)],
   [(0, ⟨[(10, 2)]⟩)]⟩

/-- `bugW1` after the external relation updates of the second frame: entity 2's
`ChildOf` is modified to parent 1 (same key 10) and a fresh entity 3 is
inserted under parent 1 with key 20. The derived indices are untouched — they
are only updated by the next `tree_indexing` pass. -/
def bugW1m : World :=
  ⟨[(2, ⟨1, 10⟩), (3, ⟨1, 20⟩)],
   [(2, ⟨0, (10, 2), none, none⟩)],
   [(0, ⟨[(10, 2)]⟩)]⟩

/-- Result of the second `tree_indexing` pass over `bugW1m` (inserted = [3],
modified = [2]): parent 1's index is correct, but parent 0's children still
hold the stale entry `(10, 2)` and entity 2's `SiblingIndex` points into
parent 1's list. -/
def bugW2 : World :=
  ⟨[(2, ⟨1, 10⟩), (3, ⟨1, 20⟩)],
   [(3, ⟨1, (20, 3), some (10, 2), none⟩), (2, ⟨1, (10, 2), none, some (20, 3)⟩)],
   [(0, ⟨[(10, 2)]⟩), (1, ⟨[(10, 2), (20, 3)]⟩)]⟩

/-- World used to witness orphan retention: parent 1 (itself a child of 0) and
its child 2 both had their `ChildOf` deleted this frame, so the relation store
is already empty while the indices still reflect the previous frame. -/
def orphanW : World :=
  ⟨[],
   [(1, ⟨0, (5, 1), none, none⟩), (2, ⟨1, (7, 2), none, none⟩)],
   [(0, ⟨[(5, 1)]⟩), (1, ⟨[(7, 2)]⟩)]⟩

/-- Relation store used to witness the cross-parent move resolution. -/
def crossStore : List (Nat × ChildOf) :=
  [(1, ⟨5, 10⟩), (2, ⟨6, 20⟩), (4, ⟨5, 30⟩), (3, ⟨6, 7⟩)]

/-- A consistent one-child world used to witness the idempotence and orphan
retention theorems. -/
def noopW : World :=
  ⟨[(2, ⟨0, 10⟩)],
   [(2, ⟨0, (10, 2), none, none⟩)],
   [(0, ⟨[(10, 2)]⟩)]⟩

/-! ## Helper lemmas -/

/-- A one-command queue drains to exactly one `reorderStep`. -/
theorem tree_reordering_single (c : ReorderCmd) (s : List (Nat × ChildOf)) :
    tree_reordering [c] s = reorderStep s c := by
  unfold tree_reordering
  cases h : reorderStep s c <;> simp [List.foldlM, h]

/-- Lookup after an overwrite-or-append update. -/
theorem lookupId_setId {α : Type} (s : List (Nat × α)) (t x : Nat) (v : α) :
    lookupId (setId s t v) x = if x = t then some v else lookupId s x := by
  induction s with
  | nil =>
    rcases eq_or_ne t x with h | h
    · subst h; simp [setId, lookupId]
    · simp [setId, lookupId, h, Ne.symm h]
  | cons p rest ih =>
    obtain ⟨k, w⟩ := p
    by_cases hk : k = t
    · subst hk
      simp only [setId, if_pos rfl, lookupId]
      by_cases hx : k = x
      · subst hx; simp
      · simp [hx, Ne.symm hx]
    · simp only [setId, if_neg hk, lookupId, ih]
      by_cases hx : k = x
      · have hxt : ¬ x = t := fun h => hk (hx.trans h)
        simp [hx, hxt]
      · simp [hx]

/-- One drain iteration of `tree_reordering`. -/
theorem tree_reordering_cons (c : ReorderCmd) (cs : List ReorderCmd)
    (s : List (Nat × ChildOf)) :
    tree_reordering (c :: cs) s =
      match reorderStep s c with
      | none => none
      | some s2 => tree_reordering cs s2 := by
  unfold tree_reordering
  rw [List.foldlM_cons]
  cases h : reorderStep s c <;> simp [h]

/-- A `Move` command referencing any entity with no `ChildOf` makes the loop
body fail (the modelled shipyard panic). -/
theorem reorderStep_missing (s : List (Nat × ChildOf)) (t a b : Nat)
    (h : lookupId s t = none ∨ lookupId s a = none ∨ lookupId s b = none) :
    reorderStep s (ReorderCmd.move t (a, b)) = none := by
  simp only [reorderStep]
  cases ha : lookupId s a with
  | none => rfl
  | some aCo =>
    cases hb : lookupId s b with
    | none => rfl
    | some bCo =>
      cases ht : lookupId s t with
      | none => rfl
      | some tCo => rcases h with h | h | h <;> simp_all

/-- A successful `reorderStep` never creates a `ChildOf` for an entity that had
none: the relation write only overwrites the (present) target. -/
theorem reorderStep_none_stable (s s2 : List (Nat × ChildOf)) (c : ReorderCmd)
    (x : Nat) (hstep : reorderStep s c = some s2) (hx : lookupId s x = none) :
    lookupId s2 x = none := by
  cases c with
  | move t ab =>
    obtain ⟨a, b⟩ := ab
    simp only [reorderStep] at hstep
    cases ha : lookupId s a <;> rw [ha] at hstep
    · simp at hstep
    · cases hb : lookupId s b <;> rw [hb] at hstep
      · simp at hstep
      · cases ht : lookupId s t <;> rw [ht] at hstep
        · simp at hstep
        · simp only [Option.some.injEq] at hstep
          subst hstep
          rw [lookupId_setId]
          by_cases hxt : x = t
          · subst hxt; rw [ht] at hx; cases hx
          · simp [hxt, hx]

/-- Lower-bound / attainment characterisation of the minimum-scanning fold in
`tree_reordering`. -/
theorem foldl_min_spec (l : List (Nat × ChildOf)) (init : Nat) :
    List.foldl (fun after p => if p.2.ord < after then p.2.ord else after) init l ≤ init ∧
    (∀ q ∈ l,
      List.foldl (fun after p => if p.2.ord < after then p.2.ord else after) init l ≤ q.2.ord) ∧
    (List.foldl (fun after p => if p.2.ord < after then p.2.ord else after) init l = init ∨
      ∃ q ∈ l,
        q.2.ord = List.foldl (fun after p => if p.2.ord < after then p.2.ord else after) init l) := by
  induction l generalizing init with
  | nil => simp
  | cons x xs ih =>
    simp only [List.foldl_cons]
    obtain ⟨ih1, ih2, ih3⟩ := ih (if x.2.ord < init then x.2.ord else init)
    by_cases hx : x.2.ord < init
    · rw [if_pos hx] at ih1 ih2 ih3 ⊢
      refine ⟨le_trans ih1 (le_of_lt hx), ?_, ?_⟩
      · intro q hq
        rcases List.mem_cons.mp hq with rfl | hq
        · exact ih1
        · exact ih2 q hq
      · rcases ih3 with h | ⟨q, hq, hqe⟩
        · exact Or.inr ⟨x, List.mem_cons_self x xs, h.symm⟩
        · exact Or.inr ⟨q, List.mem_cons_of_mem x hq, hqe⟩
    · rw [if_neg hx] at ih1 ih2 ih3 ⊢
      refine ⟨ih1, ?_, ?_⟩
      · intro q hq
        rcases List.mem_cons.mp hq with rfl | hq
        · exact le_trans ih1 (le_of_not_lt hx)
        · exact ih2 q hq
      · rcases ih3 with h | ⟨q, hq, hqe⟩
        · exact Or.inl h
        · exact Or.inr ⟨q, List.mem_cons_of_mem x hq, hqe⟩

/-! ## Claim theorems -/

/-- C10: `Ordered::between` is commutative in its two bounds — swapping the
bounds yields the same key. -/
theorem between_comm (a b : Nat) :
    Ordered.between a b = Ordered.between b a := by
  unfold Ordered.between
  omega

/-- C4 counterexample: at `min = max = 1` the claimed bounds fail —
`between(1,1) = 0`, so `min ≤ between(min,max)` is violated and the
`max − min ≤ 1` case does not return `min`. -/
theorem between_bounds_cex :
    ¬ ((1 : Nat) ≤ Ordered.between 1 1 ∧ Ordered.between 1 1 ≤ 1 ∧
        (1 - 1 ≤ 1 → Ordered.between 1 1 = 1)) := by
  decide

/-- C4 amended: for all `min ≤ max`, `between(min,max) ≤ max` always holds, and
`min ≤ between(min,max)` holds whenever `min` is even or `min < max`; in the
remaining case (`min = max` odd) the result is `min - 1`. Under `max − min ≤ 1`
the result equals `min` exactly when `min` is even or `min < max`. -/
theorem between_bounds (min max : Nat) (h : min ≤ max) :
    Ordered.between min max ≤ max ∧
    (min % 2 = 0 ∨ min < max → min ≤ Ordered.between min max) ∧
    (min % 2 = 1 ∧ min = max → Ordered.between min max = min - 1) ∧
    (max - min ≤ 1 → min % 2 = 0 ∨ min < max → Ordered.between min max = min) := by
  unfold Ordered.between
  omega

/-- Witness for `between_bounds` at `min = 2`, `max = 3`. -/
theorem between_bounds_check : Ordered.between 2 3 ≤ 3 :=
  (between_bounds 2 3 (by decide)).1

/-- C5: `Ordered::hinted` is strictly monotonic on the whole hint domain
`0..255`. -/
theorem hinted_strictMono (h1 h2 : Nat) (hlt : h1 < h2) (_hb : h2 ≤ 255) :
    Ordered.hinted h1 < Ordered.hinted h2 := by
  have hp : h1 ^ 3 < h2 ^ 3 := Nat.pow_lt_pow_left hlt (by omega)
  unfold Ordered.hinted
  omega

/-- Witness for `hinted_strictMono` at hints 1 and 2. -/
theorem hinted_strictMono_check : Ordered.hinted 1 < Ordered.hinted 2 :=
  hinted_strictMono 1 2 (by decide) (by decide)

/-- C6: a `Move` command whose reference entities A and B share the same parent
`p` rewrites the target's relation to parent `p` and key
`between(A.key, B.key)`. -/
theorem move_same_parent_midpoint (store : List (Nat × ChildOf)) (target a b : Nat)
    (p ka kb : Nat) (tco : ChildOf)
    (ha : lookupId store a = some ⟨p, ka⟩)
    (hb : lookupId store b = some ⟨p, kb⟩)
    (ht : lookupId store target = some tco) :
    tree_reordering [ReorderCmd.move target (a, b)] store
      = some (setId store target ⟨p, Ordered.between ka kb⟩) := by
  rw [tree_reordering_single]
  simp only [reorderStep, ha, hb, ht]
  simp

/-- Witness for `move_same_parent_midpoint`: keys 10 and 20 give the target
key 15 (scenario D). -/
theorem move_same_parent_midpoint_check :
    tree_reordering [ReorderCmd.move 3 (1, 2)]
        [(1, ⟨0, 10⟩), (2, ⟨0, 20⟩), (3, ⟨0, 12⟩)]
      = some [(1, ⟨0, 10⟩), (2, ⟨0, 20⟩), (3, ⟨0, 15⟩)] := by
  have h := move_same_parent_midpoint
    [(1, ⟨0, 10⟩), (2, ⟨0, 20⟩), (3, ⟨0, 12⟩)] 3 1 2 0 10 20 ⟨0, 12⟩ rfl rfl rfl
  rw [h]
  rfl

/-- C1 as stated fails on the code: starting from the empty index state, one
pass indexes entity 2 under parent 0; in the next frame entity 2's `ChildOf` is
modified to parent 1 and a fresh entity 3 is inserted under parent 1. Because
insertions are processed before modifications, inserting 3 materializes parent
1's `ParentIndex` from the already-updated relation store and overwrites entity
2's `SiblingIndex` with `parent_node = 1`; the subsequent unlink of the
modified entity 2 therefore removes it from parent 1's list instead of parent
0's. After the completed pass, parent 0's children still hold `(10, 2)`
although no current `ChildOf` names parent 0. -/
theorem tree_indexing_stale_parent_children :
    tree_indexing [] [2] [] bugW0 = some bugW1 ∧
    tree_indexing [] [3] [2] bugW1m = some bugW2 ∧
    lookupId bugW2.parent_index 0 = some ⟨[(10, 2)]⟩ ∧
    ∀ p ∈ bugW2.child_of, ¬ p.2.parent = 0 := by
  refine ⟨by decide, by decide, by decide, by decide⟩

/-- C2 as stated fails on the code, in the same two-pass scenario as
`tree_indexing_stale_parent_children`: after the completed second pass, parent
0's children vector is `[(10, 2)]`, whose single element is both first and
last, yet entity 2's `SiblingIndex` has `next_sibling = some (20, 3)` (a
pointer into parent 1's list) instead of `none`. -/
theorem tree_indexing_stale_sibling_link :
    tree_indexing [] [3] [2] bugW1m = some bugW2 ∧
    lookupId bugW2.parent_index 0 = some ⟨[(10, 2)]⟩ ∧
    lookupId bugW2.sibling_index 2 = some ⟨1, (10, 2), none, some (20, 3)⟩ := by
  refine ⟨by decide, by decide, by decide⟩

/-- C9: a `Move` command naming a target, A, or B with no current `ChildOf`
relation makes the whole `tree_reordering` drain abort (the modelled shipyard
panic) instead of skipping the command: the drain returns no final store. -/
theorem move_missing_relation_aborts (cmds : List ReorderCmd)
    (store : List (Nat × ChildOf)) (t a b : Nat)
    (hmem : ReorderCmd.move t (a, b) ∈ cmds)
    (hmiss : lookupId store t = none ∨ lookupId store a = none ∨
      lookupId store b = none) :
    tree_reordering cmds store = none := by
  induction cmds generalizing store with
  | nil => cases hmem
  | cons c cs ih =>
    rw [tree_reordering_cons]
    rcases List.mem_cons.mp hmem with hc | hc
    · rw [← hc, reorderStep_missing store t a b hmiss]
    · cases hstep : reorderStep store c with
      | none => rfl
      | some s2 =>
        have h2 : lookupId s2 t = none ∨ lookupId s2 a = none ∨
            lookupId s2 b = none := by
          rcases hmiss with h | h | h
          · exact Or.inl (reorderStep_none_stable store s2 c t hstep h)
          · exact Or.inr (Or.inl (reorderStep_none_stable store s2 c a hstep h))
          · exact Or.inr (Or.inr (reorderStep_none_stable store s2 c b hstep h))
        exact ih s2 hc h2

/-- Witness for `move_missing_relation_aborts`: the target entity 9 has no
relation, so the drain aborts. -/
theorem move_missing_relation_aborts_check :
    tree_reordering [ReorderCmd.move 9 (1, 2)] [(1, ⟨0, 10⟩), (2, ⟨0, 20⟩)] = none :=
  move_missing_relation_aborts [ReorderCmd.move 9 (1, 2)]
    [(1, ⟨0, 10⟩), (2, ⟨0, 20⟩)] 9 1 2 (by decide) (Or.inl (by decide))

/-- C3: a `Move` command whose references A and B currently have different
parents sets the target's parent to A's parent `pa` and its key to
`between(ka, U)`, where `U` is a lower bound of every key strictly above `ka`
among the current children of `pa`, and either `U` is itself such a key (the
immediate successor) or no such key exists and `U = MAX_ORDERED`. B's key `kb`
does not occur in the result. The `hrange` hypothesis records the `u32` value
range of stored keys, and `hnodup` that a shipyard storage holds one component
per entity. -/
theorem move_cross_parent_lands_after_a (store : List (Nat × ChildOf))
    (target a b pa pb ka kb : Nat) (tco : ChildOf)
    (_hnodup : (store.map Prod.fst).Nodup)
    (hrange : ∀ q ∈ store, q.2.ord ≤ MAX_ORDERED)
    (ha : lookupId store a = some ⟨pa, ka⟩)
    (hb : lookupId store b = some ⟨pb, kb⟩)
    (hne : pa ≠ pb)
    (ht : lookupId store target = some tco) :
    ∃ U : Nat,
      tree_reordering [ReorderCmd.move target (a, b)] store
        = some (setId store target ⟨pa, Ordered.between ka U⟩) ∧
      (∀ q ∈ store, q.2.parent = pa → ka < q.2.ord → U ≤ q.2.ord) ∧
      ((∃ q ∈ store, q.2.parent = pa ∧ ka < q.2.ord ∧ q.2.ord = U) ∨
        ((∀ q ∈ store, q.2.parent = pa → ¬ ka < q.2.ord) ∧ U = MAX_ORDERED)) := by
  rw [tree_reordering_single]
  simp only [reorderStep, ha, hb, ht]
  rw [if_pos]
  · refine ⟨_, rfl, ?_, ?_⟩
    · intro q hq hqp hqlt
      exact (foldl_min_spec _ MAX_ORDERED).2.1 q
        (List.mem_filter.mpr ⟨hq, by simp [hqp, hqlt]⟩)
    · rcases (foldl_min_spec
          (store.filter (fun p => decide (p.2.parent = pa ∧ ka < p.2.ord)))
          MAX_ORDERED).2.2 with hU | ⟨q, hqf, hqe⟩
      · by_cases hfil :
            store.filter (fun p => decide (p.2.parent = pa ∧ ka < p.2.ord)) = []
        · refine Or.inr ⟨?_, ?_⟩
          · intro q hq hqp hqlt
            have hmemf : q ∈ store.filter
                (fun p => decide (p.2.parent = pa ∧ ka < p.2.ord)) :=
              List.mem_filter.mpr ⟨hq, by simp [hqp, hqlt]⟩
            rw [hfil] at hmemf
            cases hmemf
          · rw [hfil]
            rfl
        · obtain ⟨y, ys, hfil2⟩ := List.exists_cons_of_ne_nil hfil
          have hy : y ∈ store.filter
              (fun p => decide (p.2.parent = pa ∧ ka < p.2.ord)) := by
            rw [hfil2]; exact List.mem_cons_self y ys
          obtain ⟨hys, hyp⟩ := List.mem_filter.mp hy
          simp only [decide_eq_true_eq] at hyp
          have h1 := (foldl_min_spec
            (store.filter (fun p => decide (p.2.parent = pa ∧ ka < p.2.ord)))
            MAX_ORDERED).2.1 y hy
          have h2 := hrange y hys
          exact Or.inl ⟨y, hys, hyp.1, hyp.2, by omega⟩
      · obtain ⟨hqs, hqp⟩ := List.mem_filter.mp hqf
        simp only [decide_eq_true_eq] at hqp
        exact Or.inl ⟨q, hqs, hqp.1, hqp.2, hqe⟩
  · simpa using hne

/-- Witness for `move_cross_parent_lands_after_a`: A (entity 1, parent 5, key
10) and B (entity 2, parent 6) have different parents; entity 4 is A's
successor under parent 5 with key 30, so the target gets parent 5 and key
`between(10, 30) = 20`. -/
theorem move_cross_parent_lands_after_a_check :
    ∃ U : Nat,
      tree_reordering [ReorderCmd.move 3 (1, 2)] crossStore
        = some (setId crossStore 3 ⟨5, Ordered.between 10 U⟩) ∧
      (∀ q ∈ crossStore, q.2.parent = 5 → 10 < q.2.ord → U ≤ q.2.ord) ∧
      ((∃ q ∈ crossStore, q.2.parent = 5 ∧ 10 < q.2.ord ∧ q.2.ord = U) ∨
        ((∀ q ∈ crossStore, q.2.parent = 5 → ¬ 10 < q.2.ord) ∧ U = MAX_ORDERED)) :=
  move_cross_parent_lands_after_a crossStore 3 1 2 5 6 10 20 ⟨6, 7⟩
    (by decide) (by decide) (by decide) (by decide) (by decide) (by decide)

/-- The strict sibling order is asymmetric (hence irreflexive). -/
theorem sibLT_asymm (x y : SiblingID) (h1 : sibLT x y) (h2 : sibLT y x) : False := by
  unfold sibLT at h1 h2
  omega

/-- Trichotomy for the strict sibling order. -/
theorem sibLT_total (x y : SiblingID) (h1 : ¬ sibLT x y) (h2 : ¬ x = y) :
    sibLT y x := by
  unfold sibLT at h1 ⊢
  rw [Prod.ext_iff] at h2
  omega

/-- Completeness of the embedded binary-search loop: on a strictly sorted
vector, an element present in the searched range is found (`Ok`). -/
theorem bsearchGo_finds (xs : List SiblingID) (x : SiblingID)
    (hpw : List.Pairwise sibLT xs) :
    ∀ fuel lo hi : Nat, hi - lo ≤ fuel → hi ≤ xs.length →
      (∃ j, lo ≤ j ∧ j < hi ∧ xs.getD j (0, 0) = x) →
      ∃ i, bsearchGo xs x fuel lo hi = Sum.inl i := by
  have hpair : ∀ i j, i < xs.length → j < xs.length → i < j →
      sibLT (xs.getD i (0, 0)) (xs.getD j (0, 0)) := by
    intro i j h1 h2 hij
    rw [List.getD_eq_getElem xs (0, 0) h1, List.getD_eq_getElem xs (0, 0) h2]
    exact List.pairwise_iff_getElem.mp hpw i j h1 h2 hij
  intro fuel
  induction fuel with
  | zero =>
    intro lo hi hf _ hex
    obtain ⟨j, hj1, hj2, _⟩ := hex
    omega
  | succ fuel ih =>
    intro lo hi hf hhi hex
    obtain ⟨j, hj1, hj2, hjx⟩ := hex
    have hlt : lo < hi := by omega
    have hjlen : j < xs.length := by omega
    have hmidlt : (lo + hi) / 2 < hi := by omega
    have hmidlo : lo ≤ (lo + hi) / 2 := by omega
    have hmidlen : (lo + hi) / 2 < xs.length := by omega
    simp only [bsearchGo, if_pos hlt]
    by_cases h1 : sibLT (xs.getD ((lo + hi) / 2) (0, 0)) x
    · rw [if_pos h1]
      apply ih ((lo + hi) / 2 + 1) hi (by omega) hhi
      refine ⟨j, ?_, hj2, hjx⟩
      by_contra hc
      push_neg at hc
      rcases Nat.lt_or_ge j ((lo + hi) / 2) with hjm | hjm
      · exact sibLT_asymm _ _ h1 (hjx ▸ hpair j ((lo + hi) / 2) hjlen hmidlen hjm)
      · have hje : j = (lo + hi) / 2 := by omega
        subst hje
        rw [hjx] at h1
        exact sibLT_asymm x x h1 h1
    · rw [if_neg h1]
      by_cases h2 : xs.getD ((lo + hi) / 2) (0, 0) = x
      · rw [if_pos h2]
        exact ⟨(lo + hi) / 2, rfl⟩
      · rw [if_neg h2]
        apply ih lo ((lo + hi) / 2) (by omega) (by omega)
        refine ⟨j, hj1, ?_, hjx⟩
        have h3 : sibLT x (xs.getD ((lo + hi) / 2) (0, 0)) :=
          sibLT_total _ _ h1 h2
        by_contra hc
        push_neg at hc
        rcases Nat.lt_or_ge ((lo + hi) / 2) j with hmj | hmj
        · exact sibLT_asymm _ _ h3 (hjx ▸ hpair ((lo + hi) / 2) j hmidlen hjlen hmj)
        · have hje : j = (lo + hi) / 2 := by omega
          subst hje
          exact h2 hjx

/-- Completeness of `binarySearch` on a strictly sorted vector. -/
theorem binarySearch_finds (xs : List SiblingID) (x : SiblingID)
    (hpw : List.Pairwise sibLT xs) (hmem : x ∈ xs) :
    ∃ i, binarySearch xs x = Sum.inl i := by
  obtain ⟨j, hj, hjx⟩ := List.getElem_of_mem hmem
  exact bsearchGo_finds xs x hpw xs.length 0 xs.length (by omega) (Nat.le_refl _)
    ⟨j, Nat.zero_le j, hj, by rw [List.getD_eq_getElem xs (0, 0) hj]; exact hjx⟩

/-- C7: `insert_child_of` is idempotent — if the exact `(key, id)` pair being
inserted is already present in the parent's (sorted) `ParentIndex.children`,
the call returns the world unchanged: no `ParentIndex` and no `SiblingIndex`
of any entity is mutated. -/
theorem insert_child_of_idempotent (w : World) (pi : ParentIndex)
    (child_id child_order parent_id : Nat)
    (hpi : lookupId w.parent_index parent_id = some pi)
    (hsorted : List.Pairwise sibLT pi.children)
    (hmem : (child_order, child_id) ∈ pi.children) :
    insert_child_of w child_id child_order parent_id = some w := by
  obtain ⟨i, hi⟩ := binarySearch_finds pi.children (child_order, child_id) hsorted hmem
  simp only [insert_child_of, hpi, hi]

/-- Witness for `insert_child_of_idempotent`: re-inserting the already indexed
child 2 with its current key 10 under parent 0 leaves the world untouched. -/
theorem insert_child_of_idempotent_check :
    insert_child_of noopW 2 10 0 = some noopW :=
  insert_child_of_idempotent noopW ⟨[(10, 2)]⟩ 2 10 0 (by decide) (by simp)
    (by simp)

/-- An overwrite-or-append update never drops a present key. -/
theorem lookupId_setId_isSome {α : Type} (s : List (Nat × α)) (t x : Nat) (v : α)
    (h : (lookupId s x).isSome) : (lookupId (setId s t v) x).isSome := by
  rw [lookupId_setId]
  by_cases hx : x = t
  · simp [hx]
  · simpa [hx] using h

/-- `unlink_child` only rewrites the children vector of an existing
`ParentIndex`; it never deletes a `ParentIndex` entry. -/
theorem unlink_child_keeps_parent_index (w w2 : World) (c P : Nat)
    (h : unlink_child w c = some w2)
    (hP : (lookupId w.parent_index P).isSome) :
    (lookupId w2.parent_index P).isSome := by
  simp only [unlink_child] at h
  repeat' split at h
  all_goals cases h
  all_goals exact lookupId_setId_isSome _ _ _ _ hP

/-- `insert_child_of` only adds or rewrites `ParentIndex` entries; it never
deletes one. -/
theorem insert_child_of_keeps_parent_index (w w2 : World)
    (cid co pid P : Nat) (h : insert_child_of w cid co pid = some w2)
    (hP : (lookupId w.parent_index P).isSome) :
    (lookupId w2.parent_index P).isSome := by
  simp only [insert_child_of] at h
  repeat' split at h
  all_goals cases h
  all_goals first
    | exact hP
    | exact lookupId_setId_isSome _ _ _ _ hP
    | exact lookupId_setId_isSome _ _ _ _ (lookupId_setId_isSome _ _ _ _ hP)

/-- An `Option`-valued fold preserves any property preserved by each step. -/
theorem foldlM_option_preserves {β : Type} (f : World → β → Option World)
    (pred : World → Prop)
    (hf : ∀ w x w2, pred w → f w x = some w2 → pred w2) :
    ∀ (l : List β) (w w2 : World), pred w → l.foldlM f w = some w2 → pred w2 := by
  intro l
  induction l with
  | nil =>
    intro w w2 hp h
    simp only [List.foldlM_nil] at h
    cases h
    exact hp
  | cons x xs ih =>
    intro w w2 hp h
    rw [List.foldlM_cons] at h
    cases hs : f w x <;> rw [hs] at h
    · exact Option.noConfusion h
    · exact ih _ w2 (hf w x _ hp hs) h

/-- C8: no `tree_indexing` pass — whatever deletions, insertions and
modifications it processes, including the deletion of a parent's last child
and of the parent's own `ChildOf` — ever removes a `ParentIndex`: every entity
with a `ParentIndex` before the pass still has one (possibly with an empty
children vector) after it. -/
theorem tree_indexing_keeps_parent_index (deleted inserted modified : List Nat)
    (w w2 : World) (P : Nat)
    (h : tree_indexing deleted inserted modified w = some w2)
    (hP : (lookupId w.parent_index P).isSome) :
    (lookupId w2.parent_index P).isSome := by
  simp only [tree_indexing] at h
  split at h
  · exact Option.noConfusion h
  · rename_i wa h1
    split at h
    · exact Option.noConfusion h
    · rename_i wb h2
      have hPa : (lookupId wa.parent_index P).isSome :=
        foldlM_option_preserves _ (fun v => (lookupId v.parent_index P).isSome)
          (fun w x w2 hp hs => unlink_child_keeps_parent_index w w2 x P hs hp)
          deleted w wa hP h1
      have hPb : (lookupId wb.parent_index P).isSome := by
        refine foldlM_option_preserves _
          (fun v => (lookupId v.parent_index P).isSome) ?_ inserted wa wb hPa h2
        intro w x w2 hp hs
        cases hc : lookupId w.child_of x <;> rw [hc] at hs
        · exact Option.noConfusion hs
        · exact insert_child_of_keeps_parent_index w w2 x _ _ P hs hp
      refine foldlM_option_preserves _
        (fun v => (lookupId v.parent_index P).isSome) ?_ modified wb w2 hPb h
      intro w x w2 hp hs
      cases hc : lookupId w.child_of x <;> rw [hc] at hs
      · exact Option.noConfusion hs
      · cases hu : unlink_child w x <;> rw [hu] at hs
        · exact Option.noConfusion hs
        · exact insert_child_of_keeps_parent_index _ w2 x _ _ P hs
            (unlink_child_keeps_parent_index w _ x P hu hp)

/-- Witness for `tree_indexing_keeps_parent_index`: deleting both remaining
`ChildOf` relations (parent 1's own relation and that of its last child 2)
leaves parent 1's `ParentIndex` present with an empty children vector. -/
theorem tree_indexing_keeps_parent_index_check :
    (lookupId (World.mk [] [] [(0, ⟨[]⟩), (1, ⟨[]⟩)]).parent_index 1).isSome :=
  tree_indexing_keeps_parent_index [1, 2] [] [] orphanW
    ⟨[], [], [(0, ⟨[]⟩), (1, ⟨[]⟩)]⟩ 1 (by decide) (by decide)

end ShipyardTrees
